import Mathlib

/-!
A formal model of the `funsearch` evolutionary-search core, together with
theorems about its population store (`core/program_db.py`), its evaluator
(`core/evaluator.py`), its predator-prey simulation environment
(`environment/predator_prey_env.py`) and its orchestration loop
(`funsearch.py`).

Modelling conventions:
* Python `float` values are modelled as rationals (`ℚ`) in the population
  store and orchestrator, where only ordering matters, and as reals (`ℝ`)
  in the simulation environment, where `math.sqrt` occurs.
* Fallible code (statements that can raise) is modelled with `Except`;
  code that swallows an exception locally is modelled with `Option`.
* The global random source is modelled as an injected stream of draws.
-/

/-- Model of `Program` from `core/program_db.py`.  The metadata dictionary is an
abstract type `M` (with `none` standing for the empty dictionary that the
source substitutes for `None`); the `timestamp` field of the source, which
never influences behaviour, is omitted. -/
structure Program (M : Type) where
  code : String
  fitness : ℚ
  metadata : Option M := none
  generation : ℕ := 0
  parent_id : Option ℕ := none
deriving DecidableEq

instance {M : Type} : Inhabited (Program M) := ⟨⟨"", 0, none, 0, none⟩⟩

/-- Model of `heapq._siftdown(heap, startpos, pos)` from the Python standard library,
as used by `ProgramDatabase`.  `newitem` is the value read from `heap[pos]`
before the loop; `Program.__lt__` compares fitness values. -/
def siftdownAux {M : Type} (heap : List (Program M)) (newitem : Program M)
    (startpos pos : ℕ) : List (Program M) :=
  if h : startpos < pos then
    let parentpos := (pos - 1) / 2
    let parent := heap.getD parentpos default
    if newitem.fitness < parent.fitness then
      siftdownAux (heap.set pos parent) newitem startpos parentpos
    else
      heap.set pos newitem
  else
    heap.set pos newitem
termination_by pos
decreasing_by omega

/-- Model of `heapq._siftup(heap, pos)` from the Python standard library (the hole at
`pos` descends to a leaf, then `_siftdown` runs from there).  `startpos` is
the initial position and `newitem` the value read from `heap[pos]`. -/
def siftupAux {M : Type} (heap : List (Program M)) (newitem : Program M)
    (startpos pos : ℕ) : List (Program M) :=
  if h : 2 * pos + 1 < heap.length then
    let childpos0 := 2 * pos + 1
    let childpos :=
      if childpos0 + 1 < heap.length ∧
          ¬ (heap.getD childpos0 default).fitness <
            (heap.getD (childpos0 + 1) default).fitness then
        childpos0 + 1
      else
        childpos0
    siftupAux (heap.set pos (heap.getD childpos default)) newitem startpos childpos
  else
    siftdownAux (heap.set pos newitem) newitem startpos pos
termination_by heap.length - pos
decreasing_by
  simp only [List.length_set]
  split
  next hc => obtain ⟨hc1, -⟩ := hc; omega
  next => omega

/-- Model of `heapq.heappush(heap, item)`: append, then sift down from the last slot. -/
def heappush {M : Type} (heap : List (Program M)) (item : Program M) :
    List (Program M) :=
  siftdownAux (heap ++ [item]) item 0 heap.length

/-- Model of `heapq.heapreplace(heap, item)`: return the root and the heap with the
root replaced by `item` and repaired.  (Python raises `IndexError` on an
empty heap; `add_program` only calls this with a full, hence non-empty,
heap.) -/
def heapreplace {M : Type} (heap : List (Program M)) (item : Program M) :
    Program M × List (Program M) :=
  (heap.getD 0 default, siftupAux (heap.set 0 item) item 0 0)

/-- Model of `ProgramDatabase` from `core/program_db.py`. -/
structure ProgramDatabase (M : Type) where
  max_size : ℕ := 100
  programs : List (Program M) := []
  best_program : Option (Program M) := none
  generation : ℕ := 0
deriving DecidableEq

/-- Model of `ProgramDatabase.__init__`. -/
def ProgramDatabase.init (M : Type) (max_size : ℕ) : ProgramDatabase M :=
  { max_size := max_size, programs := [], best_program := none, generation := 0 }

/-- Model of `ProgramDatabase.add_program`.  Returns the updated database and the
`bool` result.  The at-capacity comparison reads `self.programs[0]`, which is
in bounds whenever `max_size > 0` (for `max_size = 0` the Python source would
raise `IndexError` there; the theorems below assume a positive capacity). -/
def ProgramDatabase.add_program {M : Type} (db : ProgramDatabase M)
    (code : String) (fitness : ℚ) (metadata : Option M := none)
    (parent_id : Option ℕ := none) : ProgramDatabase M × Bool :=
  let program : Program M :=
    { code := code, fitness := fitness, metadata := metadata,
      generation := db.generation, parent_id := parent_id }
  let db1 : ProgramDatabase M :=
    match db.best_program with
    | none => { db with best_program := some program }
    | some b =>
        if fitness > b.fitness then { db with best_program := some program }
        else db
  if db1.programs.length < db1.max_size then
    ({ db1 with programs := heappush db1.programs program }, true)
  else if fitness > (db1.programs.getD 0 default).fitness then
    ({ db1 with programs := (heapreplace db1.programs program).2 }, true)
  else
    (db1, false)

/-- Model of `sorted(self.programs, key=lambda p: p.fitness, reverse=True)`: a stable
descending sort by fitness.  A stable sort is extensionally unique (the output
is determined by the key order, with ties in original relative order), so
the stable Python `sorted` with `reverse=True` is modelled by a stable insertion
sort under the reversed relation. -/
def sortedByFitnessDesc {M : Type} (l : List (Program M)) : List (Program M) :=
  l.insertionSort (fun a b => b.fitness ≤ a.fitness)

/-- Model of `ProgramDatabase.get_best(n)`. -/
def ProgramDatabase.get_best {M : Type} (db : ProgramDatabase M) (n : ℕ := 1) :
    List (Program M) :=
  (sortedByFitnessDesc db.programs).take n

/-- Model of `ProgramDatabase.get_best_program()`. -/
def ProgramDatabase.get_best_program {M : Type} (db : ProgramDatabase M) :
    Option (Program M) :=
  db.best_program

/-- The `top_programs` pool that `sample_program` draws from. -/
def ProgramDatabase.samplePool {M : Type} (db : ProgramDatabase M) :
    List (Program M) :=
  db.get_best (max 1 (db.programs.length / 5))

/-- Model of `ProgramDatabase.sample_program()`.  `random.choice(top_programs)` is
modelled by an injected draw `choice`, reduced modulo the pool size. -/
def ProgramDatabase.sample_program {M : Type} (db : ProgramDatabase M)
    (choice : ℕ) : Option (Program M) :=
  if db.programs.isEmpty then none
  else
    let top_programs := db.samplePool
    some (top_programs.getD (choice % top_programs.length) default)

/-- Model of `ProgramDatabase.increment_generation()`. -/
def ProgramDatabase.increment_generation {M : Type} (db : ProgramDatabase M) :
    ProgramDatabase M :=
  { db with generation := db.generation + 1 }

/-- Fold a sequence of `add_program` calls over a database (code and fitness
per call; metadata and parent default as in the keyword defaults of the source). -/
def runAdds {M : Type} (db : ProgramDatabase M) :
    List (String × ℚ) → ProgramDatabase M
  | [] => db
  | (c, f) :: rest => runAdds (db.add_program c f none none).1 rest

/-- The fitness of `_best_program`, with `⊥` for `None` (used to state the
best-ever invariants). -/
def ProgramDatabase.bestFitness {M : Type} (db : ProgramDatabase M) : WithBot ℚ :=
  match db.best_program with
  | none => ⊥
  | some p => (p.fitness : WithBot ℚ)

/-- Fitness of the heap entry at index `i` (default entry out of bounds). -/
def fitD {M : Type} (h : List (Program M)) (i : ℕ) : ℚ :=
  (h.getD i default).fitness

/-- The binary-min-heap ordering invariant maintained by `heapq` on
`self.programs`: every non-root entry is at least its parent (fitness-wise). -/
def IsHeap {M : Type} (h : List (Program M)) : Prop :=
  ∀ i, i < h.length → 0 < i → fitD h ((i - 1) / 2) ≤ fitD h i

instance {M : Type} (h : List (Program M)) : Decidable (IsHeap h) :=
  inferInstanceAs (Decidable (∀ i, i < h.length → 0 < i →
    fitD h ((i - 1) / 2) ≤ fitD h i))

/-- Model of `Agent` from `environment/predator_prey_env.py`. -/
structure Agent where
  x : ℝ
  y : ℝ
  alive : Bool := true

/-- Model of `Agent.distance_to`: Euclidean distance. -/
noncomputable def Agent.distance_to (a other : Agent) : ℝ :=
  Real.sqrt ((a.x - other.x) ^ 2 + (a.y - other.y) ^ 2)

/-- The `PredatorPreyEnvironment.__init__` configuration, with the defaults of the
source. -/
structure PredatorPreyEnvironment where
  width : ℝ := 100
  height : ℝ := 100
  num_mice : ℕ := 5
  num_predators : ℕ := 2
  max_steps : ℕ := 200
  predator_speed : ℝ := 1.5
  mouse_speed : ℝ := 1
  capture_distance : ℝ := 2

/-- Model of `random.uniform(a, b)` for one basic draw `r` of `random.random()`. -/
noncomputable def uniformDraw (a b r : ℝ) : ℝ := a + (b - a) * r

/-- Model of `_initialize_agents`, with the global `random` module modelled as a
stream `rng` of basic draws consumed in call order: two per mouse, then two
per predator. -/
noncomputable def PredatorPreyEnvironment.init_agents (env : PredatorPreyEnvironment)
    (rng : ℕ → ℝ) : List Agent × List Agent :=
  ((List.range env.num_mice).map fun i =>
      { x := uniformDraw 0 env.width (rng (2 * i)),
        y := uniformDraw 0 env.height (rng (2 * i + 1)), alive := true },
   (List.range env.num_predators).map fun j =>
      { x := uniformDraw 0 env.width (rng (2 * env.num_mice + 2 * j)),
        y := uniformDraw 0 env.height (rng (2 * env.num_mice + 2 * j + 1)),
        alive := true })

/-- Python `min(agents, key=f)` on a list: the first element attaining the
minimal key (`min` only replaces its current best on a strictly smaller
key), or `none` for the empty list (where Python raises `ValueError`). -/
noncomputable def minByKey (f : Agent → ℝ) : List Agent → Option Agent
  | [] => none
  | a :: rest => some (rest.foldl (fun best p => if f p < f best then p else best) a)

/-- Model of `_predator_behavior`: chase the nearest alive mouse at unit speed. -/
noncomputable def PredatorPreyEnvironment.predator_behavior
    (_env : PredatorPreyEnvironment) (predator : Agent) (mice : List Agent) :
    ℝ × ℝ :=
  let alive_mice := mice.filter (·.alive)
  match minByKey (fun m => predator.distance_to m) alive_mice with
  | none => (0, 0)
  | some nearest_mouse =>
    let dx := nearest_mouse.x - predator.x
    let dy := nearest_mouse.y - predator.y
    let distance := Real.sqrt (dx ^ 2 + dy ^ 2)
    if distance > 0 then (dx / distance, dy / distance) else (0, 0)

/-- Model of `_clip_position`. -/
noncomputable def PredatorPreyEnvironment.clip_position
    (env : PredatorPreyEnvironment) (x y : ℝ) : ℝ × ℝ :=
  (max 0 (min env.width x), max 0 (min env.height y))

/-- The `state` dict passed to the behavior function each step. -/
structure SimState where
  step : ℕ
  width : ℝ
  height : ℝ
  num_alive : ℕ

/-- A candidate behavior `(state, mouse_pos, predator_pos) -> (dx, dy)`.
A result of `none` models a call that raises or whose result does not
unpack into a pair of numbers; the source swallows exactly these per-call
failures inside its `try` block. -/
def MouseBehavior : Type := SimState → ℝ × ℝ → ℝ × ℝ → Option (ℝ × ℝ)

/-- Model of `sum(1 for m in mice if m.alive)`. -/
def countAlive (mice : List Agent) : ℕ := (mice.filter (·.alive)).length

/-- The movement applied to an alive mouse inside the `try` block once the
behavior call has returned `(dx, dy)`: normalize to the mouse speed (a
zero-length direction is left unscaled), add, and clip to the bounds. -/
noncomputable def PredatorPreyEnvironment.move_mouse (env : PredatorPreyEnvironment)
    (mouse : Agent) (d : ℝ × ℝ) : Agent :=
  let distance := Real.sqrt (d.1 ^ 2 + d.2 ^ 2)
  let dx := if distance > 0 then d.1 / distance * env.mouse_speed else d.1
  let dy := if distance > 0 then d.2 / distance * env.mouse_speed else d.2
  let p := env.clip_position (mouse.x + dx) (mouse.y + dy)
  { mouse with x := p.1, y := p.2 }

/-- The agent produced by one behavior invocation on an alive mouse: the
mouse moved in the direction the behavior returned, or unchanged when the call fails
(raises or returns a malformed result, modelled by `none`). -/
noncomputable def PredatorPreyEnvironment.moved_mouse (env : PredatorPreyEnvironment)
    (behavior : MouseBehavior) (st : SimState) (mouse nearest : Agent) : Agent :=
  match behavior st (mouse.x, mouse.y) (nearest.x, nearest.y) with
  | none => mouse
  | some d => env.move_mouse mouse d

/-- The per-mouse body of the step loop in `run_simulation`: skip dead mice;
find the nearest predator (`min` raises `ValueError` on an empty predator
list, outside the `try` block, modelled as `.error`); move according to the
behavior, treating a failing call as no movement; then accumulate one
survival step and the distance from the (possibly moved) mouse to that same
predator.  Returns the updated mouse and the two accumulator increments. -/
noncomputable def PredatorPreyEnvironment.update_mouse (env : PredatorPreyEnvironment)
    (behavior : MouseBehavior) (st : SimState) (predators : List Agent)
    (mouse : Agent) : Except String (Agent × ℕ × ℝ) :=
  if mouse.alive then
    match minByKey (fun p => mouse.distance_to p) predators with
    | none => .error "min() arg is an empty sequence"
    | some nearest_predator =>
      let moved := env.moved_mouse behavior st mouse nearest_predator
      .ok (moved, 1, moved.distance_to nearest_predator)
  else
    .ok (mouse, 0, 0)

/-- The mouse-update loop of one step, over the mice in list order. -/
noncomputable def PredatorPreyEnvironment.update_mice (env : PredatorPreyEnvironment)
    (behavior : MouseBehavior) (st : SimState) (predators : List Agent) :
    List Agent → Except String (List Agent × ℕ × ℝ)
  | [] => .ok ([], 0, 0)
  | mouse :: rest => do
      let r ← env.update_mouse behavior st predators mouse
      let rs ← env.update_mice behavior st predators rest
      return (r.1 :: rs.1, r.2.1 + rs.2.1, r.2.2 + rs.2.2)

/-- The predator-update loop of one step (each predator reads only the mice,
so the in-place Python loop is a map). -/
noncomputable def PredatorPreyEnvironment.update_predators
    (env : PredatorPreyEnvironment) (mice predators : List Agent) : List Agent :=
  predators.map fun predator =>
    let d := env.predator_behavior predator mice
    let p := env.clip_position (predator.x + d.1 * env.predator_speed)
      (predator.y + d.2 * env.predator_speed)
    { predator with x := p.1, y := p.2 }

/-- The capture check of one step: any alive mouse strictly within
`capture_distance` of any predator is marked dead. -/
noncomputable def PredatorPreyEnvironment.apply_captures
    (env : PredatorPreyEnvironment) (predators mice : List Agent) : List Agent :=
  predators.foldl
    (fun current predator =>
      current.map fun mouse =>
        if mouse.alive ∧ predator.distance_to mouse < env.capture_distance then
          { mouse with alive := false }
        else mouse)
    mice

/-- The mutable state of the step loop of `run_simulation`. -/
structure SimLoopState where
  mice : List Agent
  predators : List Agent
  total_survival_steps : ℕ
  total_distance_score : ℝ

/-- One iteration of the step loop of `run_simulation`. -/
noncomputable def PredatorPreyEnvironment.run_step (env : PredatorPreyEnvironment)
    (behavior : MouseBehavior) (step : ℕ) (s : SimLoopState) :
    Except String SimLoopState := do
  let st : SimState :=
    { step := step, width := env.width, height := env.height,
      num_alive := countAlive s.mice }
  let r ← env.update_mice behavior st s.predators s.mice
  let predators1 := env.update_predators r.1 s.predators
  let mice1 := env.apply_captures predators1 r.1
  return { mice := mice1, predators := predators1,
           total_survival_steps := s.total_survival_steps + r.2.1,
           total_distance_score := s.total_distance_score + r.2.2 }

/-- The step loop `for step in range(max_steps)` with its early break when
no mouse remains alive; the first argument is the number of remaining
iterations, the second the current step index. -/
noncomputable def PredatorPreyEnvironment.run_steps (env : PredatorPreyEnvironment)
    (behavior : MouseBehavior) : ℕ → ℕ → SimLoopState → Except String SimLoopState
  | 0, _, s => .ok s
  | n + 1, step, s => do
      let s1 ← env.run_step behavior step s
      if countAlive s1.mice = 0 then .ok s1
      else env.run_steps behavior n (step + 1) s1

/-- The fitness computation at the end of `run_simulation`.  The first
division raises `ZeroDivisionError` when `num_mice * max_steps = 0`. -/
noncomputable def PredatorPreyEnvironment.fitness_of (env : PredatorPreyEnvironment)
    (s : SimLoopState) : Except String ℝ :=
  if env.num_mice * env.max_steps = 0 then .error "division by zero"
  else
    let avg_survival : ℝ :=
      (s.total_survival_steps : ℝ) / ((env.num_mice : ℝ) * (env.max_steps : ℝ))
    let avg_distance : ℝ :=
      s.total_distance_score / ((max 1 s.total_survival_steps : ℕ) : ℝ)
    let final_alive : ℝ := (countAlive s.mice : ℝ) / (env.num_mice : ℝ)
    .ok (avg_survival * 100 + avg_distance * 0.5 + final_alive * 50)

/-- Model of `run_simulation` given explicit initial agents (the body after the
`_initialize_agents` call). -/
noncomputable def PredatorPreyEnvironment.run_simulation_from
    (env : PredatorPreyEnvironment) (behavior : MouseBehavior)
    (mice predators : List Agent) : Except String ℝ := do
  let final ← env.run_steps behavior env.max_steps 0
    { mice := mice, predators := predators,
      total_survival_steps := 0, total_distance_score := 0 }
  env.fitness_of final

/-- Model of `PredatorPreyEnvironment.run_simulation`. -/
noncomputable def PredatorPreyEnvironment.run_simulation
    (env : PredatorPreyEnvironment) (behavior : MouseBehavior) (rng : ℕ → ℝ) :
    Except String ℝ :=
  let agents := env.init_agents rng
  env.run_simulation_from behavior agents.1 agents.2

/-- The outcome of `exec(program_code, {}, local_scope)` followed by the
entry-point lookup in `Evaluator.evaluate`: compilation/execution either
raises, or produces a scope that may or may not define `mice_behavior`. -/
inductive ExecOutcome where
  | raises (msg : String)
  | scope (mice_behavior : Option MouseBehavior)

/-- The metadata dictionaries built by `Evaluator.evaluate`: an error entry
alone, an error entry together with a `traceback` entry, or the success
dictionary. -/
inductive EvalMetadata where
  | errorOnly (error : String)
  | errorWithTrace (error : String)
  | success (trials : ℕ) (scores : List ℝ) (avg_score min_score max_score : ℝ)

/-- Python `min` of a nonempty list `x :: l` (and `listMax` likewise). -/
noncomputable def listMin (x : ℝ) (l : List ℝ) : ℝ := l.foldl min x

noncomputable def listMax (x : ℝ) (l : List ℝ) : ℝ := l.foldl max x

/-- The trial loop of `Evaluator.evaluate`: `num_trials` sequential calls of
`run_simulation`, the `i`-th call consuming the stream `trial_rng i`. -/
noncomputable def runTrials (env : PredatorPreyEnvironment)
    (behavior : MouseBehavior) (trial_rng : ℕ → ℕ → ℝ) :
    ℕ → ℕ → Except String (List ℝ)
  | _, 0 => .ok []
  | i, n + 1 => do
      let score ← env.run_simulation behavior (trial_rng i)
      let rest ← runTrials env behavior trial_rng (i + 1) n
      return score :: rest

/-- The `try` block of `Evaluator.evaluate`: everything that can raise,
including the `sum(scores) / len(scores)` division, which raises
`ZeroDivisionError` when no trial ran. -/
noncomputable def Evaluator.evaluate_body (execd : ExecOutcome)
    (env : PredatorPreyEnvironment) (trial_rng : ℕ → ℕ → ℝ) (num_trials : ℕ) :
    Except String (ℝ × EvalMetadata) :=
  match execd with
  | .raises msg => .error msg
  | .scope none => .ok (-1, .errorOnly "No mice_behavior function found")
  | .scope (some behavior_fn) => do
      let scores ← runTrials env behavior_fn trial_rng 0 num_trials
      match scores with
      | [] => .error "division by zero"
      | s0 :: srest =>
          let avg_score := (s0 :: srest).sum / ((s0 :: srest).length : ℝ)
          return (avg_score,
            .success num_trials (s0 :: srest) avg_score
              (listMin s0 srest) (listMax s0 srest))

/-- Model of `Evaluator.evaluate`: the `try/except` wrapper around the body; any
raise is converted to fitness `-1.0` with the error text and a traceback
captured in the metadata. -/
noncomputable def Evaluator.evaluate (execd : ExecOutcome)
    (env : PredatorPreyEnvironment) (trial_rng : ℕ → ℕ → ℝ) (num_trials : ℕ) :
    ℝ × EvalMetadata :=
  match Evaluator.evaluate_body execd env trial_rng num_trials with
  | .ok r => r
  | .error msg => (-1, .errorWithTrace msg)

/-- The running statistics and database of the `FunSearch` class
(`funsearch.py`); `best_fitness` starts at negative infinity, modelled `⊥`. -/
structure FunSearch (M : Type) where
  database : ProgramDatabase M
  total_samples : ℕ := 0
  valid_samples : ℕ := 0
  accepted_samples : ℕ := 0
  best_fitness : WithBot ℚ := ⊥

/-- The fixed task prompt built by `FunSearch.run_iteration` (abridged; its
content is never inspected by the core). -/
def funsearchPrompt : String :=
  "Generate a Python function named mice_behavior that controls how mice move in a predator-prey environment."

/-- The result dictionaries returned by `FunSearch.run_iteration`: the
failure dictionary carries a reason and fitness `-1.0`; the success
dictionary carries the acceptance flag, fitness and metadata. -/
structure IterationOutcome (M : Type) where
  success : Bool
  reason : Option String := none
  accepted : Option Bool := none
  fitness : ℚ
  metadata : Option M := none
deriving DecidableEq

/-- Model of `FunSearch.run_iteration`.  Collaborators are injected: `choice` is the
random draw used by `sample_program`, `sample` is `self.sampler.sample`,
`is_valid` is `self.evaluator.is_valid`, `evaluateFn` is
`self.evaluator.evaluate` on the new program, and `id_of` stands for the Python builtin `id`.
Returns the updated state and the outcome dictionary. -/
def FunSearch.run_iteration {M : Type} (fs : FunSearch M) (choice : ℕ)
    (sample : String → Option (List String) → String)
    (is_valid : String → Bool)
    (evaluateFn : String → ℚ × M)
    (id_of : Program M → ℕ) :
    FunSearch M × IterationOutcome M :=
  let parent_program := fs.database.sample_program choice
  let context := parent_program.map fun p => [p.code]
  let new_program := sample funsearchPrompt context
  let fs1 := { fs with total_samples := fs.total_samples + 1 }
  if ¬ is_valid new_program then
    (fs1, { success := false, reason := some "invalid_syntax", fitness := -1 })
  else
    let fs2 := { fs1 with valid_samples := fs1.valid_samples + 1 }
    let fm := evaluateFn new_program
    let parent_id := parent_program.map id_of
    let dbAcc := fs2.database.add_program new_program fm.1 (some fm.2) parent_id
    let fs3 := { fs2 with
      database := dbAcc.1,
      accepted_samples :=
        if dbAcc.2 then fs2.accepted_samples + 1 else fs2.accepted_samples }
    let fs4 :=
      if fs3.best_fitness < (fm.1 : WithBot ℚ) then
        { fs3 with best_fitness := (fm.1 : WithBot ℚ) }
      else fs3
    (fs4, { success := true, accepted := some dbAcc.2, fitness := fm.1,
            metadata := some fm.2 })

theorem fitD_set_self {M : Type} (h : List (Program M)) {i : ℕ}
    (hi : i < h.length) (a : Program M) : fitD (h.set i a) i = a.fitness := by
  unfold fitD
  rw [List.getD_eq_getElem _ _ (by rw [List.length_set]; exact hi),
    List.getElem_set_self]

theorem fitD_set_ne {M : Type} (h : List (Program M)) {i j : ℕ} (hij : i ≠ j)
    (a : Program M) : fitD (h.set i a) j = fitD h j := by
  unfold fitD
  rcases Nat.lt_or_ge j h.length with hj | hj
  · rw [List.getD_eq_getElem _ _ (by rw [List.length_set]; exact hj),
      List.getD_eq_getElem _ _ hj, List.getElem_set_ne hij]
  · rw [List.getD_eq_default _ _ (by rw [List.length_set]; exact hj),
      List.getD_eq_default _ _ hj]

theorem perm_swap_middle {α : Type} (a b : α) (m r : List α) :
    (a :: (m ++ b :: r)).Perm (b :: (m ++ a :: r)) :=
  ((List.perm_middle.cons a).trans (List.Perm.swap b a (m ++ r))).trans
    (List.perm_middle.symm.cons b)

/-- Overwriting slot `i` with the entry of slot `j` and then slot `j` with a
fresh value permutes to just overwriting slot `i` with the fresh value. -/
theorem set_set_getD_perm {α : Type} [Inhabited α] (l : List α) {i j : ℕ}
    (hi : i < l.length) (hj : j < l.length) (hij : i ≠ j) (x : α) :
    ((l.set i (l.getD j default)).set j x).Perm (l.set i x) := by
  rw [List.getD_eq_getElem _ _ hj]
  rcases Nat.lt_or_ge i j with hlt | hge
  · have hTi : i < (l.take j).length := by
      rw [List.length_take_of_le hj.le]; exact hlt
    have hset : ∀ a : α, l.set i a = (l.take j).set i a ++ l.drop j := by
      intro a
      conv_lhs => rw [← List.take_append_drop j l]
      rw [List.set_append, if_pos hTi]
    have hdrop : l.drop j = l[j] :: l.drop (j + 1) := List.drop_eq_getElem_cons hj
    have hdec : ∀ a : α,
        (l.take j).set i a = (l.take j).take i ++ a :: (l.take j).drop (i + 1) := by
      intro a
      rw [List.set_eq_take_append_cons_drop, if_pos hTi]
    have hlen : ∀ a : α, ((l.take j).set i a).length = j := by
      intro a
      rw [List.length_set, List.length_take_of_le hj.le]
    rw [hset, hset, List.set_append, if_neg (by rw [hlen]; omega), hlen, hdrop]
    simp only [Nat.sub_self, List.set_cons_zero]
    rw [hdec, hdec]
    simp only [List.append_assoc, List.cons_append]
    exact List.Perm.append_left _ (perm_swap_middle l[j] x _ _)
  · have hlt : j < i := by omega
    have hTj : j < (l.take i).length := by
      rw [List.length_take_of_le hi.le]; exact hlt
    have hdec : ∀ a : α, l.set i a = l.take i ++ a :: l.drop (i + 1) := by
      intro a
      rw [List.set_eq_take_append_cons_drop, if_pos hi]
    have hsplit : l.take i =
        (l.take i).take j ++ l[j] :: (l.take i).drop (j + 1) := by
      conv_lhs => rw [← List.take_append_drop j (l.take i)]
      rw [List.drop_eq_getElem_cons hTj, List.getElem_take]
    have hsetj : (l.take i).set j x =
        (l.take i).take j ++ x :: (l.take i).drop (j + 1) := by
      rw [List.set_eq_take_append_cons_drop, if_pos hTj]
    rw [hdec, hdec, List.set_append, if_pos (by rw [List.length_take_of_le hi.le]; exact hlt),
      hsetj]
    conv_rhs => rw [hsplit]
    simp only [List.append_assoc, List.cons_append]
    exact List.Perm.append_left _ (perm_swap_middle x l[j] _ _)

theorem siftdownAux_perm {M : Type} (x : Program M) (startpos : ℕ) :
    ∀ pos, ∀ h : List (Program M), pos < h.length →
      (siftdownAux h x startpos pos).Perm (h.set pos x) := by
  intro pos
  induction pos using Nat.strong_induction_on with
  | _ pos ih =>
    intro h hpos
    rw [siftdownAux]
    dsimp only
    split
    next hlt =>
      split
      next hcmp =>
        refine (ih ((pos - 1) / 2) (by omega) _ (by rw [List.length_set]; omega)).trans ?_
        exact set_set_getD_perm h hpos (by omega) (by omega) x
      next => exact List.Perm.refl _
    next => exact List.Perm.refl _

theorem siftupAux_perm {M : Type} (x : Program M) (startpos : ℕ) :
    ∀ n pos, ∀ h : List (Program M), h.length - pos = n → pos < h.length →
      (siftupAux h x startpos pos).Perm (h.set pos x) := by
  intro n
  induction n using Nat.strong_induction_on with
  | _ n ih =>
    intro pos h hn hpos
    have key : ∀ childpos, pos < childpos → childpos < h.length →
        (siftupAux (h.set pos (h.getD childpos default)) x startpos
          childpos).Perm (h.set pos x) := by
      intro childpos h1 h2
      refine (ih ((h.set pos (h.getD childpos default)).length - childpos)
        (by rw [List.length_set]; omega) childpos _ rfl
        (by rw [List.length_set]; omega)).trans ?_
      exact set_set_getD_perm h hpos h2 (by omega) x
    rw [siftupAux]
    dsimp only
    split
    next hchild =>
      split
      next hc => exact key (2 * pos + 1 + 1) (by omega) (by omega)
      next hc => exact key (2 * pos + 1) (by omega) (by omega)
    next hnochild =>
      refine (siftdownAux_perm x startpos pos (h.set pos x)
        (by rw [List.length_set]; exact hpos)).trans ?_
      rw [List.set_set]

theorem heappush_perm {M : Type} (h : List (Program M)) (x : Program M) :
    (heappush h x).Perm (x :: h) := by
  unfold heappush
  refine (siftdownAux_perm x 0 h.length (h ++ [x]) (by simp)).trans ?_
  have hset : (h ++ [x]).set h.length x = h ++ [x] := by
    rw [List.set_append]; simp
  rw [hset]
  exact List.perm_append_singleton x h

theorem heapreplace_perm {M : Type} (h : List (Program M)) (x : Program M)
    (h0 : 0 < h.length) : ((heapreplace h x).2).Perm (h.set 0 x) := by
  unfold heapreplace
  refine (siftupAux_perm x 0 ((h.set 0 x).length - 0) 0 (h.set 0 x) rfl
    (by rw [List.length_set]; exact h0)).trans ?_
  rw [List.set_set]

theorem heappush_length {M : Type} (h : List (Program M)) (x : Program M) :
    (heappush h x).length = h.length + 1 := by
  rw [(heappush_perm h x).length_eq]; rfl

theorem heapreplace_length {M : Type} (h : List (Program M)) (x : Program M)
    (h0 : 0 < h.length) : ((heapreplace h x).2).length = h.length := by
  rw [(heapreplace_perm h x h0).length_eq, List.length_set]

theorem heappush_mem {M : Type} {h : List (Program M)} {x p : Program M}
    (hp : p ∈ heappush h x) : p = x ∨ p ∈ h := by
  have := (heappush_perm h x).mem_iff.mp hp
  simpa using this

theorem heapreplace_mem {M : Type} {h : List (Program M)} {x p : Program M}
    (h0 : 0 < h.length) (hp : p ∈ (heapreplace h x).2) : p = x ∨ p ∈ h := by
  have hmem := (heapreplace_perm h x h0).mem_iff.mp hp
  rcases List.mem_or_eq_of_mem_set hmem with hin | he
  · exact .inr hin
  · exact .inl he

/-- Invariant of the `_siftdown` climb with the hole at `pos` (start 0):
edges away from the hole are ordered; the children of the hole dominate
the parent of the hole; and the new item fits below the children of the
hole. -/
structure SiftDownInv {M : Type} (h : List (Program M)) (x : Program M)
    (pos : ℕ) : Prop where
  hpos : pos < h.length
  edges : ∀ i, i < h.length → 0 < i → i ≠ pos → (i - 1) / 2 ≠ pos →
    fitD h ((i - 1) / 2) ≤ fitD h i
  over : ∀ i, i < h.length → 0 < i → (i - 1) / 2 = pos → 0 < pos →
    fitD h ((pos - 1) / 2) ≤ fitD h i
  below : ∀ i, i < h.length → 0 < i → (i - 1) / 2 = pos →
    x.fitness ≤ fitD h i

theorem siftdownAux_isHeap {M : Type} (x : Program M) :
    ∀ pos, ∀ h : List (Program M), SiftDownInv h x pos →
      IsHeap (siftdownAux h x 0 pos) := by
  intro pos
  induction pos using Nat.strong_induction_on with
  | _ pos ih =>
    intro h inv
    rw [siftdownAux]
    dsimp only
    split
    next hlt =>
      split
      next hcmp =>
        refine ih ((pos - 1) / 2) (by omega) _ ?_
        constructor
        · rw [List.length_set]; have := inv.hpos; omega
        · intro i hi h0i hne hpne
          rw [List.length_set] at hi
          rcases eq_or_ne i pos with rfl | hip
          · exact absurd rfl hpne
          · rcases eq_or_ne ((i - 1) / 2) pos with hpar | hpar
            · rw [hpar, fitD_set_self h inv.hpos, fitD_set_ne h (Ne.symm hip)]
              exact inv.over i hi h0i hpar (by omega)
            · rw [fitD_set_ne h (Ne.symm hpar), fitD_set_ne h (Ne.symm hip)]
              exact inv.edges i hi h0i hip hpar
        · intro i hi h0i hpi h0p
          rw [List.length_set] at hi
          have hgp : (((pos - 1) / 2) - 1) / 2 ≠ pos := by omega
          rw [fitD_set_ne h (Ne.symm hgp)]
          have hbase : fitD h (((pos - 1) / 2 - 1) / 2) ≤ fitD h ((pos - 1) / 2) :=
            inv.edges ((pos - 1) / 2) (by have := inv.hpos; omega) h0p (by omega)
              (by omega)
          rcases eq_or_ne i pos with rfl | hip
          · rw [fitD_set_self h inv.hpos]
            exact hbase
          · rw [fitD_set_ne h (Ne.symm hip)]
            have he := inv.edges i hi h0i hip (by omega)
            rw [hpi] at he
            exact le_trans hbase he
        · intro i hi h0i hpi
          rw [List.length_set] at hi
          rcases eq_or_ne i pos with rfl | hip
          · rw [fitD_set_self h inv.hpos]
            exact le_of_lt hcmp
          · rw [fitD_set_ne h (Ne.symm hip)]
            have he := inv.edges i hi h0i hip (by omega)
            rw [hpi] at he
            exact le_trans (le_of_lt hcmp) he
      next hcmp =>
        intro i hi h0i
        rw [List.length_set] at hi
        rcases eq_or_ne i pos with rfl | hip
        · rw [fitD_set_self h inv.hpos, fitD_set_ne h (by omega)]
          exact le_of_not_lt hcmp
        · rcases eq_or_ne ((i - 1) / 2) pos with hpar | hpar
          · rw [hpar, fitD_set_self h inv.hpos, fitD_set_ne h (Ne.symm hip)]
            exact inv.below i hi h0i hpar
          · rw [fitD_set_ne h (Ne.symm hpar), fitD_set_ne h (Ne.symm hip)]
            exact inv.edges i hi h0i hip hpar
    next hge =>
      have hp0 : pos = 0 := by omega
      subst hp0
      intro i hi h0i
      rw [List.length_set] at hi
      rcases eq_or_ne ((i - 1) / 2) 0 with hpar | hpar
      · rw [hpar, fitD_set_self h inv.hpos, fitD_set_ne h (by omega)]
        exact inv.below i hi h0i hpar
      · rw [fitD_set_ne h (Ne.symm hpar), fitD_set_ne h (by omega)]
        exact inv.edges i hi h0i (by omega) hpar

/-- Invariant of the `_siftup` descent with the hole at `pos` (start 0):
edges away from the hole are ordered and the children of the hole
dominate the parent of the hole. -/
structure SiftUpInv {M : Type} (h : List (Program M)) (pos : ℕ) : Prop where
  hpos : pos < h.length
  edges : ∀ i, i < h.length → 0 < i → i ≠ pos → (i - 1) / 2 ≠ pos →
    fitD h ((i - 1) / 2) ≤ fitD h i
  over : ∀ i, i < h.length → 0 < i → (i - 1) / 2 = pos → 0 < pos →
    fitD h ((pos - 1) / 2) ≤ fitD h i

theorem siftupAux_isHeap {M : Type} (x : Program M) :
    ∀ n pos, ∀ h : List (Program M), h.length - pos = n → SiftUpInv h pos →
      IsHeap (siftupAux h x 0 pos) := by
  intro n
  induction n using Nat.strong_induction_on with
  | _ n ih =>
    intro pos h hn inv
    have key : ∀ childpos, childpos = 2 * pos + 1 ∨ childpos = 2 * pos + 2 →
        childpos < h.length →
        (∀ s, s < h.length → 0 < s → (s - 1) / 2 = pos → s ≠ childpos →
          fitD h childpos ≤ fitD h s) →
        IsHeap (siftupAux (h.set pos (h.getD childpos default)) x 0 childpos) := by
      intro childpos hcp hcl hmin
      refine ih ((h.set pos (h.getD childpos default)).length - childpos)
        (by rw [List.length_set]; omega) childpos _ rfl ?_
      have hpc : pos < childpos := by omega
      constructor
      · rw [List.length_set]; exact hcl
      · intro i hi h0i hne hpne
        rw [List.length_set] at hi
        rcases eq_or_ne i pos with rfl | hip
        · rw [fitD_set_self h inv.hpos, fitD_set_ne h (by omega)]
          exact inv.over childpos hcl (by omega) (by omega) h0i
        · rcases eq_or_ne ((i - 1) / 2) pos with hpar | hpar
          · rw [hpar, fitD_set_self h inv.hpos, fitD_set_ne h (Ne.symm hip)]
            exact hmin i hi h0i hpar hne
          · rw [fitD_set_ne h (Ne.symm hpar), fitD_set_ne h (Ne.symm hip)]
            exact inv.edges i hi h0i hip hpar
      · intro i hi h0i hpi h0c
        rw [List.length_set] at hi
        have hcpar : (childpos - 1) / 2 = pos := by omega
        have hip : i ≠ pos := by omega
        rw [hcpar, fitD_set_self h inv.hpos, fitD_set_ne h (Ne.symm hip)]
        have he := inv.edges i hi h0i hip (by omega)
        rw [hpi] at he
        exact he
    rw [siftupAux]
    dsimp only
    split
    next hchild =>
      split
      next hc =>
        refine key (2 * pos + 1 + 1) (by omega) hc.1 ?_
        intro s hs h0s hsp hsne
        have hs1 : s = 2 * pos + 1 := by omega
        subst hs1
        exact le_of_not_lt hc.2
      next hc =>
        refine key (2 * pos + 1) (by omega) hchild ?_
        intro s hs h0s hsp hsne
        have hs2 : s = 2 * pos + 1 + 1 := by omega
        have hlt : fitD h (2 * pos + 1) < fitD h (2 * pos + 1 + 1) := by
          by_contra hno
          exact hc ⟨by omega, hno⟩
        subst hs2
        exact le_of_lt hlt
    next hnochild =>
      refine siftdownAux_isHeap x pos (h.set pos x) ?_
      constructor
      · rw [List.length_set]; exact inv.hpos
      · intro i hi h0i hne hpne
        rw [List.length_set] at hi
        rw [fitD_set_ne h (Ne.symm hpne), fitD_set_ne h (Ne.symm hne)]
        exact inv.edges i hi h0i hne hpne
      · intro i hi h0i hpi h0p
        rw [List.length_set] at hi
        omega
      · intro i hi h0i hpi
        rw [List.length_set] at hi
        omega

theorem fitD_append_lt {M : Type} (h l : List (Program M)) {j : ℕ}
    (hj : j < h.length) : fitD (h ++ l) j = fitD h j := by
  unfold fitD
  rw [List.getD_eq_getElem _ _ (by rw [List.length_append]; omega),
    List.getD_eq_getElem _ _ hj, List.getElem_append_left hj]

/-- The operation `heappush` preserves the heap invariant. -/
theorem heappush_isHeap {M : Type} {h : List (Program M)} (hh : IsHeap h)
    (x : Program M) : IsHeap (heappush h x) := by
  unfold heappush
  refine siftdownAux_isHeap x h.length (h ++ [x]) ?_
  constructor
  · simp
  · intro i hi h0i hne hpne
    rw [List.length_append, List.length_cons, List.length_nil] at hi
    have hil : i < h.length := by omega
    rw [fitD_append_lt h [x] hil, fitD_append_lt h [x] (by omega)]
    exact hh i hil h0i
  · intro i hi h0i hpi h0p
    rw [List.length_append, List.length_cons, List.length_nil] at hi
    omega
  · intro i hi h0i hpi
    rw [List.length_append, List.length_cons, List.length_nil] at hi
    omega

/-- The operation `heapreplace` preserves the heap invariant. -/
theorem heapreplace_isHeap {M : Type} {h : List (Program M)} (hh : IsHeap h)
    (h0 : 0 < h.length) (x : Program M) : IsHeap ((heapreplace h x).2) := by
  unfold heapreplace
  refine siftupAux_isHeap x ((h.set 0 x).length - 0) 0 (h.set 0 x) rfl ?_
  constructor
  · rw [List.length_set]; exact h0
  · intro i hi h0i hne hpne
    rw [List.length_set] at hi
    rw [fitD_set_ne h (Ne.symm hpne), fitD_set_ne h (Ne.symm hne)]
    exact hh i hi h0i
  · intro i hi h0i hpi h0p
    omega

/-- In a heap the root entry has the least fitness. -/
theorem isHeap_root_le {M : Type} {h : List (Program M)} (hh : IsHeap h) :
    ∀ i, i < h.length → fitD h 0 ≤ fitD h i := by
  intro i
  induction i using Nat.strong_induction_on with
  | _ i ih =>
    intro hi
    rcases Nat.eq_zero_or_pos i with rfl | h0
    · exact le_refl _
    · exact le_trans (ih ((i - 1) / 2) (by omega) (by omega)) (hh i hi h0)

theorem isHeap_root_le_mem {M : Type} {h : List (Program M)} (hh : IsHeap h)
    {p : Program M} (hp : p ∈ h) : fitD h 0 ≤ p.fitness := by
  obtain ⟨i, hi, rfl⟩ := List.mem_iff_getElem.mp hp
  have := isHeap_root_le hh i hi
  rwa [show fitD h i = h[i].fitness from by
    unfold fitD; rw [List.getD_eq_getElem _ _ hi]] at this

/-- Case analysis of one `add_program` call: the capacity and generation are
untouched, the best-ever fitness becomes the max of the old value and the new
fitness, and the member heap and returned flag follow the three acceptance
branches of the source. -/
theorem add_program_spec {M : Type} (db : ProgramDatabase M) (c : String)
    (f : ℚ) (md : Option M) (pid : Option ℕ) :
    (db.add_program c f md pid).1.max_size = db.max_size ∧
    (db.add_program c f md pid).1.generation = db.generation ∧
    (db.add_program c f md pid).1.bestFitness = max db.bestFitness (f : WithBot ℚ) ∧
    (db.programs.length < db.max_size →
      (db.add_program c f md pid).1.programs =
        heappush db.programs ⟨c, f, md, db.generation, pid⟩ ∧
      (db.add_program c f md pid).2 = true) ∧
    (¬ db.programs.length < db.max_size → fitD db.programs 0 < f →
      (db.add_program c f md pid).1.programs =
        (heapreplace db.programs ⟨c, f, md, db.generation, pid⟩).2 ∧
      (db.add_program c f md pid).2 = true) ∧
    (¬ db.programs.length < db.max_size → ¬ fitD db.programs 0 < f →
      (db.add_program c f md pid).1.programs = db.programs ∧
      (db.add_program c f md pid).2 = false) := by
  unfold ProgramDatabase.add_program
  cases hb : db.best_program with
  | none =>
    dsimp only
    have hbest : db.bestFitness = ⊥ := by
      unfold ProgramDatabase.bestFitness
      rw [hb]
    split
    next hlen =>
      refine ⟨rfl, rfl, ?_, fun _ => ⟨rfl, rfl⟩, fun hn _ => absurd hlen hn,
        fun hn _ => absurd hlen hn⟩
      rw [hbest]
      simp only [ProgramDatabase.bestFitness]
      exact (max_eq_right bot_le).symm
    next hlen =>
      split
      next hcmp =>
        refine ⟨rfl, rfl, ?_, fun hl => absurd hl hlen, fun _ _ => ⟨rfl, rfl⟩,
          fun _ hn => absurd hcmp hn⟩
        rw [hbest]
        simp only [ProgramDatabase.bestFitness]
        exact (max_eq_right bot_le).symm
      next hcmp =>
        refine ⟨rfl, rfl, ?_, fun hl => absurd hl hlen, fun _ hc => absurd hc hcmp,
          fun _ _ => ⟨rfl, rfl⟩⟩
        rw [hbest]
        simp only [ProgramDatabase.bestFitness]
        exact (max_eq_right bot_le).symm
  | some b =>
    dsimp only
    have hbest : db.bestFitness = (b.fitness : WithBot ℚ) := by
      unfold ProgramDatabase.bestFitness
      rw [hb]
    by_cases hbf : f > b.fitness
    · simp only [if_pos hbf]
      have hmax : max db.bestFitness (f : WithBot ℚ) = (f : WithBot ℚ) := by
        rw [hbest]
        exact max_eq_right (WithBot.coe_le_coe.mpr (le_of_lt hbf))
      split
      next hlen =>
        refine ⟨rfl, rfl, ?_, fun _ => ⟨rfl, rfl⟩, fun hn _ => absurd hlen hn,
          fun hn _ => absurd hlen hn⟩
        rw [hmax]
        simp only [ProgramDatabase.bestFitness]
      next hlen =>
        split
        next hcmp =>
          refine ⟨rfl, rfl, ?_, fun hl => absurd hl hlen, fun _ _ => ⟨rfl, rfl⟩,
            fun _ hn => absurd hcmp hn⟩
          rw [hmax]
          simp only [ProgramDatabase.bestFitness]
        next hcmp =>
          refine ⟨rfl, rfl, ?_, fun hl => absurd hl hlen, fun _ hc => absurd hc hcmp,
            fun _ _ => ⟨rfl, rfl⟩⟩
          rw [hmax]
          simp only [ProgramDatabase.bestFitness]
    · simp only [if_neg hbf]
      have hmax : max db.bestFitness (f : WithBot ℚ) = db.bestFitness := by
        rw [hbest]
        exact max_eq_left (WithBot.coe_le_coe.mpr (not_lt.mp hbf))
      split
      next hlen =>
        refine ⟨rfl, rfl, ?_, fun _ => ⟨rfl, rfl⟩, fun hn _ => absurd hlen hn,
          fun hn _ => absurd hlen hn⟩
        rw [hmax]
        rfl
      next hlen =>
        split
        next hcmp =>
          refine ⟨rfl, rfl, ?_, fun hl => absurd hl hlen, fun _ _ => ⟨rfl, rfl⟩,
            fun _ hn => absurd hcmp hn⟩
          rw [hmax]
          rfl
        next hcmp =>
          refine ⟨rfl, rfl, ?_, fun hl => absurd hl hlen, fun _ hc => absurd hc hcmp,
            fun _ _ => ⟨rfl, rfl⟩⟩
          rw [hmax]

theorem siftdownAux_length {M : Type} (x : Program M) (s : ℕ) :
    ∀ pos, ∀ h : List (Program M), (siftdownAux h x s pos).length = h.length := by
  intro pos
  induction pos using Nat.strong_induction_on with
  | _ pos ih =>
    intro h
    rw [siftdownAux]
    dsimp only
    split
    next hlt =>
      split
      next hcmp => rw [ih ((pos - 1) / 2) (by omega), List.length_set]
      next => exact List.length_set h pos x
    next => exact List.length_set h pos x

theorem siftupAux_length {M : Type} (x : Program M) (s : ℕ) :
    ∀ n pos, ∀ h : List (Program M), h.length - pos = n →
      (siftupAux h x s pos).length = h.length := by
  intro n
  induction n using Nat.strong_induction_on with
  | _ n ih =>
    intro pos h hn
    rw [siftupAux]
    dsimp only
    split
    next hchild =>
      split
      next hc =>
        rw [ih ((h.set pos (h.getD (2 * pos + 1 + 1) default)).length -
          (2 * pos + 1 + 1)) (by rw [List.length_set]; have := hc.1; omega) _ _ rfl,
          List.length_set]
      next hc =>
        rw [ih ((h.set pos (h.getD (2 * pos + 1) default)).length -
          (2 * pos + 1)) (by rw [List.length_set]; omega) _ _ rfl,
          List.length_set]
    next =>
      rw [siftdownAux_length, List.length_set]

theorem heapreplace_2_nil {M : Type} (x : Program M) :
    (heapreplace ([] : List (Program M)) x).2 = [] := by
  unfold heapreplace
  have hl : (siftupAux (([] : List (Program M)).set 0 x) x 0 0).length = 0 :=
    siftupAux_length x 0 _ 0 _ rfl
  exact List.length_eq_zero.mp hl

/-- All member fitnesses lie below the best-ever fitness (the `bestEver`
invariant of the store). -/
def MembersBelowBest {M : Type} (db : ProgramDatabase M) : Prop :=
  ∀ p ∈ db.programs, (p.fitness : WithBot ℚ) ≤ db.bestFitness

theorem add_program_below {M : Type} {db : ProgramDatabase M}
    (hdb : MembersBelowBest db) (c : String) (f : ℚ) (md : Option M)
    (pid : Option ℕ) : MembersBelowBest (db.add_program c f md pid).1 := by
  obtain ⟨-, -, hbest, hpush, hrepl, hrej⟩ := add_program_spec db c f md pid
  intro p hp
  rw [hbest]
  by_cases hlen : db.programs.length < db.max_size
  · obtain ⟨hprog, -⟩ := hpush hlen
    rw [hprog] at hp
    rcases heappush_mem hp with rfl | hin
    · exact le_max_right _ _
    · exact le_trans (hdb p hin) (le_max_left _ _)
  · by_cases hcmp : fitD db.programs 0 < f
    · obtain ⟨hprog, -⟩ := hrepl hlen hcmp
      rw [hprog] at hp
      by_cases h0 : db.programs.length = 0
      · rw [List.length_eq_zero.mp h0, heapreplace_2_nil] at hp
        exact absurd hp (List.not_mem_nil p)
      · rcases heapreplace_mem (by omega) hp with rfl | hin
        · exact le_max_right _ _
        · exact le_trans (hdb p hin) (le_max_left _ _)
    · obtain ⟨hprog, -⟩ := hrej hlen hcmp
      rw [hprog] at hp
      exact le_trans (hdb p hp) (le_max_left _ _)

theorem add_program_bestFitness_le {M : Type} (db : ProgramDatabase M)
    (c : String) (f : ℚ) (md : Option M) (pid : Option ℕ) :
    db.bestFitness ≤ (db.add_program c f md pid).1.bestFitness := by
  obtain ⟨-, -, hbest, -⟩ := add_program_spec db c f md pid
  rw [hbest]
  exact le_max_left _ _

theorem runAdds_append {M : Type} (db : ProgramDatabase M)
    (l₁ l₂ : List (String × ℚ)) :
    runAdds db (l₁ ++ l₂) = runAdds (runAdds db l₁) l₂ := by
  induction l₁ generalizing db with
  | nil => rfl
  | cons a rest ih =>
    obtain ⟨c, f⟩ := a
    exact ih (db.add_program c f none none).1

theorem runAdds_bestFitness_le {M : Type} (db : ProgramDatabase M)
    (l : List (String × ℚ)) : db.bestFitness ≤ (runAdds db l).bestFitness := by
  induction l generalizing db with
  | nil => exact le_refl _
  | cons a rest ih =>
    obtain ⟨c, f⟩ := a
    exact le_trans (add_program_bestFitness_le db c f none none) (ih _)

theorem runAdds_below {M : Type} {db : ProgramDatabase M}
    (hdb : MembersBelowBest db) (l : List (String × ℚ)) :
    MembersBelowBest (runAdds db l) := by
  induction l generalizing db with
  | nil => exact hdb
  | cons a rest ih =>
    obtain ⟨c, f⟩ := a
    exact ih (add_program_below hdb c f none none)

/-- Structural invariant maintained by `add_program`: the member list is a
`heapq` min-heap of size at most the capacity. -/
def DbInv {M : Type} (db : ProgramDatabase M) : Prop :=
  IsHeap db.programs ∧ db.programs.length ≤ db.max_size

theorem add_program_inv {M : Type} {db : ProgramDatabase M} (h : DbInv db)
    (c : String) (f : ℚ) (md : Option M) (pid : Option ℕ) :
    DbInv (db.add_program c f md pid).1 := by
  obtain ⟨hheap, hlen⟩ := h
  obtain ⟨hms, -, -, hpush, hrepl, hrej⟩ := add_program_spec db c f md pid
  by_cases hl : db.programs.length < db.max_size
  · obtain ⟨hprog, -⟩ := hpush hl
    refine ⟨?_, ?_⟩
    · rw [hprog]; exact heappush_isHeap hheap _
    · rw [hprog, heappush_length, hms]; omega
  · by_cases hcmp : fitD db.programs 0 < f
    · obtain ⟨hprog, -⟩ := hrepl hl hcmp
      by_cases h0 : db.programs.length = 0
      · have hnil : db.programs = [] := List.length_eq_zero.mp h0
        refine ⟨?_, ?_⟩
        · rw [hprog, hnil, heapreplace_2_nil]
          intro i hi
          simp at hi
        · rw [hprog, hnil, heapreplace_2_nil, hms]
          simp
      · refine ⟨?_, ?_⟩
        · rw [hprog]; exact heapreplace_isHeap hheap (by omega) _
        · rw [hprog, heapreplace_length _ _ (by omega), hms]; exact hlen
    · obtain ⟨hprog, -⟩ := hrej hl hcmp
      exact ⟨by rw [hprog]; exact hheap, by rw [hprog, hms]; exact hlen⟩

theorem runAdds_inv {M : Type} {db : ProgramDatabase M} (h : DbInv db)
    (l : List (String × ℚ)) : DbInv (runAdds db l) := by
  induction l generalizing db with
  | nil => exact h
  | cons a rest ih =>
    obtain ⟨c, f⟩ := a
    exact ih (add_program_inv h c f none none)

/-- C1: across every sequence of `add_program` calls the best-ever
fitness is monotonically non-decreasing; starting from a fresh database it
dominates the fitness of every stored member at all times; and it is set to the
new fitness whenever that fitness strictly exceeds it — the update precedes
the acceptance decision, so it happens even when the candidate is rejected
from the member collection. -/
theorem bestEver_tracking_invariant :
    (∀ (M : Type) (db : ProgramDatabase M) (l₁ l₂ : List (String × ℚ)),
      l₁ <+: l₂ →
      (runAdds db l₁).bestFitness ≤ (runAdds db l₂).bestFitness) ∧
    (∀ (M : Type) (m : ℕ) (l : List (String × ℚ)),
      ∀ p ∈ (runAdds (ProgramDatabase.init M m) l).programs,
        (p.fitness : WithBot ℚ) ≤
          (runAdds (ProgramDatabase.init M m) l).bestFitness) ∧
    (∀ (M : Type) (db : ProgramDatabase M) (c : String) (f : ℚ) (md : Option M)
      (pid : Option ℕ), db.bestFitness < (f : WithBot ℚ) →
      (db.add_program c f md pid).1.bestFitness = (f : WithBot ℚ)) := by
  refine ⟨?_, ?_, ?_⟩
  · rintro M db l₁ l₂ ⟨t, rfl⟩
    rw [runAdds_append]
    exact runAdds_bestFitness_le _ t
  · intro M m l
    exact runAdds_below (fun p hp => absurd hp (List.not_mem_nil p)) l
  · intro M db c f md pid hlt
    obtain ⟨-, -, hbest, -⟩ := add_program_spec db c f md pid
    rw [hbest]
    exact max_eq_right (le_of_lt hlt)

theorem bestEver_tracking_invariant_witness :
    (runAdds (ProgramDatabase.init Unit 2) [("a", 5)]).bestFitness ≤
      (runAdds (ProgramDatabase.init Unit 2) [("a", 5), ("b", 9)]).bestFitness ∧
    (((5 : ℚ) : WithBot ℚ) ≤
      (runAdds (ProgramDatabase.init Unit 1) [("a", 5)]).bestFitness) ∧
    ((ProgramDatabase.init Unit 1).add_program "c" 7 none none).1.bestFitness =
      ((7 : ℚ) : WithBot ℚ) := by
  refine ⟨bestEver_tracking_invariant.1 Unit _ _ _ ⟨[("b", 9)], rfl⟩,
    bestEver_tracking_invariant.2.1 Unit 1 [("a", 5)]
      ⟨"a", 5, none, 0, none⟩ ?_,
    bestEver_tracking_invariant.2.2 Unit _ "c" 7 none none ?_⟩
  · show (⟨"a", 5, none, 0, none⟩ : Program Unit) ∈ _
    simp [runAdds, ProgramDatabase.init, ProgramDatabase.add_program, heappush,
      siftdownAux]
  · show (ProgramDatabase.init Unit 1).bestFitness < ((7 : ℚ) : WithBot ℚ)
    exact WithBot.bot_lt_coe _

/-- C2: below capacity `add_program` inserts and returns `true`; at
capacity with the new fitness strictly above the minimum member fitness it
evicts the minimum-fitness member (the heap root), inserts, and returns
`true`; otherwise it returns `false` and leaves the members unchanged.
After an at-capacity call the member count still equals the capacity and the
minimum member fitness is at least the evicted fitness. -/
theorem add_program_acceptance :
    ∀ (M : Type) (db : ProgramDatabase M) (c : String) (f : ℚ) (md : Option M)
      (pid : Option ℕ), IsHeap db.programs → db.programs.length ≤ db.max_size →
      (db.programs.length < db.max_size →
        (db.add_program c f md pid).2 = true ∧
        ((db.add_program c f md pid).1.programs).Perm
          (⟨c, f, md, db.generation, pid⟩ :: db.programs)) ∧
      (∀ (m : Program M) (tail : List (Program M)),
        db.programs.length = db.max_size → db.programs = m :: tail →
        (∀ q ∈ db.programs, m.fitness ≤ q.fitness) ∧
        (m.fitness < f →
          (db.add_program c f md pid).2 = true ∧
          ((db.add_program c f md pid).1.programs).Perm
            (⟨c, f, md, db.generation, pid⟩ :: tail) ∧
          (db.add_program c f md pid).1.programs.length = db.max_size ∧
          (∀ q ∈ (db.add_program c f md pid).1.programs,
            m.fitness ≤ q.fitness)) ∧
        (¬ m.fitness < f →
          (db.add_program c f md pid).2 = false ∧
          (db.add_program c f md pid).1.programs = db.programs)) := by
  intro M db c f md pid hheap hcap
  obtain ⟨hms, -, -, hpush, hrepl, hrej⟩ := add_program_spec db c f md pid
  constructor
  · intro hlen
    obtain ⟨hprog, hacc⟩ := hpush hlen
    exact ⟨hacc, by rw [hprog]; exact heappush_perm _ _⟩
  · intro m tail hlen hcons
    have hfd0 : fitD db.programs 0 = m.fitness := by rw [hcons]; rfl
    have hmin : ∀ q ∈ db.programs, m.fitness ≤ q.fitness := by
      intro q hq
      have hr := isHeap_root_le_mem hheap hq
      rwa [hfd0] at hr
    refine ⟨hmin, ?_, ?_⟩
    · intro hmf
      have hnl : ¬ db.programs.length < db.max_size := by omega
      obtain ⟨hprog, hacc⟩ := hrepl hnl (by rw [hfd0]; exact hmf)
      have h0 : 0 < db.programs.length := by rw [hcons]; simp
      have hperm : ((db.add_program c f md pid).1.programs).Perm
          (⟨c, f, md, db.generation, pid⟩ :: tail) := by
        rw [hprog, hcons]
        exact heapreplace_perm (m :: tail)
          (⟨c, f, md, db.generation, pid⟩ : Program M) (by simp)
      refine ⟨hacc, hperm, ?_, ?_⟩
      · rw [hperm.length_eq]
        rw [hcons] at hlen
        simp only [List.length_cons] at hlen ⊢
        exact hlen
      · intro q hq
        rcases List.mem_cons.mp (hperm.mem_iff.mp hq) with rfl | hin
        · exact le_of_lt hmf
        · exact hmin q (by rw [hcons]; exact List.mem_cons_of_mem m hin)
    · intro hmf
      obtain ⟨hprog, hacc⟩ := hrej (by omega) (by rw [hfd0]; exact hmf)
      exact ⟨hacc, hprog⟩

/-- A concrete two-member database at capacity, used to instantiate the
acceptance theorem. -/
def dbTwo : ProgramDatabase Unit :=
  { max_size := 2,
    programs := [⟨"a", 1, none, 0, none⟩, ⟨"b", 3, none, 0, none⟩],
    best_program := some ⟨"b", 3, none, 0, none⟩,
    generation := 0 }

theorem add_program_acceptance_witness :
    (1 : ℚ) < 2 ∧
    (dbTwo.add_program "c" 2 none none).2 = true ∧
    ((dbTwo.add_program "c" 2 none none).1.programs).Perm
      (⟨"c", 2, none, 0, none⟩ :: [(⟨"b", 3, none, 0, none⟩ : Program Unit)]) ∧
    (dbTwo.add_program "c" 2 none none).1.programs.length = dbTwo.max_size := by
  have h := (add_program_acceptance Unit dbTwo "c" 2 none none (by decide)
    (by decide)).2 ⟨"a", 1, none, 0, none⟩ [⟨"b", 3, none, 0, none⟩]
    (by decide) rfl
  obtain ⟨-, h2, -⟩ := h
  obtain ⟨hacc, hperm, hlen, -⟩ := h2 (by decide)
  exact ⟨by decide, hacc, hperm, hlen⟩

theorem sortedByFitnessDesc_perm {M : Type} (l : List (Program M)) :
    (sortedByFitnessDesc l).Perm l :=
  List.perm_insertionSort _ l

theorem sortedByFitnessDesc_sorted {M : Type} (l : List (Program M)) :
    (sortedByFitnessDesc l).Sorted (fun a b => b.fitness ≤ a.fitness) := by
  haveI h1 : IsTotal (Program M) (fun a b => b.fitness ≤ a.fitness) :=
    ⟨fun a b => le_total b.fitness a.fitness⟩
  haveI h2 : IsTrans (Program M) (fun a b => b.fitness ≤ a.fitness) :=
    ⟨fun a b c hab hbc => le_trans hbc hab⟩
  exact List.sorted_insertionSort _ l

/-- A six-member database (distinct fitnesses `1..6`, members in a valid
heap order), exhibiting the size of the sampling pool. -/
def dbSix : ProgramDatabase Unit :=
  { max_size := 100,
    programs := [⟨"p1", 1, none, 0, none⟩, ⟨"p2", 2, none, 0, none⟩,
      ⟨"p3", 3, none, 0, none⟩, ⟨"p4", 4, none, 0, none⟩,
      ⟨"p5", 5, none, 0, none⟩, ⟨"p6", 6, none, 0, none⟩],
    best_program := some ⟨"p6", 6, none, 0, none⟩,
    generation := 0 }

/-- C3 counterexample: with six stored members the sampling
pool has `max 1 (6 / 5) = 1` member, not `⌈6 / 5⌉ = 2` as claimed; every
draw returns the single top member, so the second-ranked member is never
sampled. -/
theorem samplePool_not_ceil_counterexample :
    dbSix.programs.length = 6 ∧
    (dbSix.programs.length + 4) / 5 = 2 ∧
    dbSix.samplePool.length = 1 ∧
    ¬ dbSix.samplePool.length = (dbSix.programs.length + 4) / 5 ∧
    dbSix.sample_program 1 = some ⟨"p6", 6, none, 0, none⟩ := by
  decide

/-- C3 amended: `sample_program` returns `none` on an empty store;
otherwise it draws — uniformly over the injected draw, every pool index
being reachable — from the pool, which consists of exactly the top
`max 1 (size / 5)` members of a fitness-descending stable ordering of the
members. -/
theorem sample_program_amended :
    ∀ (M : Type) (db : ProgramDatabase M),
      (db.programs = [] → ∀ k, db.sample_program k = none) ∧
      (db.programs ≠ [] →
        db.samplePool.length = max 1 (db.programs.length / 5) ∧
        (∀ k, db.sample_program k =
          some (db.samplePool.getD (k % db.samplePool.length) default)) ∧
        db.samplePool =
          (sortedByFitnessDesc db.programs).take
            (max 1 (db.programs.length / 5)) ∧
        (sortedByFitnessDesc db.programs).Perm db.programs ∧
        (sortedByFitnessDesc db.programs).Sorted
          (fun a b => b.fitness ≤ a.fitness)) := by
  intro M db
  constructor
  · intro he k
    unfold ProgramDatabase.sample_program
    rw [if_pos (List.isEmpty_iff.mpr he)]
  · intro hne
    refine ⟨?_, ?_, rfl, sortedByFitnessDesc_perm _, sortedByFitnessDesc_sorted _⟩
    · unfold ProgramDatabase.samplePool ProgramDatabase.get_best
      rw [List.length_take, (sortedByFitnessDesc_perm db.programs).length_eq]
      have h1 : 1 ≤ db.programs.length := by
        cases h : db.programs with
        | nil => exact absurd h hne
        | cons a l => simp only [List.length_cons]; omega
      have h5 : db.programs.length / 5 ≤ db.programs.length := Nat.div_le_self _ _
      omega
    · intro k
      unfold ProgramDatabase.sample_program
      rw [if_neg (fun hh => hne (List.isEmpty_iff.mp hh))]

theorem sample_program_amended_witness :
    (ProgramDatabase.init Unit 5).sample_program 0 = none ∧
    dbSix.samplePool.length = max 1 (dbSix.programs.length / 5) ∧
    dbSix.sample_program 3 =
      some (dbSix.samplePool.getD (3 % dbSix.samplePool.length) default) ∧
    dbSix.samplePool =
      (sortedByFitnessDesc dbSix.programs).take
        (max 1 (dbSix.programs.length / 5)) ∧
    (sortedByFitnessDesc dbSix.programs).Perm dbSix.programs ∧
    (sortedByFitnessDesc dbSix.programs).Sorted
      (fun a b => b.fitness ≤ a.fitness) := by
  obtain ⟨h1, h2⟩ := sample_program_amended Unit dbSix
  obtain ⟨ha, hb, hc, hd, he⟩ := h2 (by decide)
  exact ⟨(sample_program_amended Unit (ProgramDatabase.init Unit 5)).1 rfl 0,
    ha, hb 3, hc, hd, he⟩

theorem distance_to_nonneg (a b : Agent) : 0 ≤ a.distance_to b :=
  Real.sqrt_nonneg _

theorem countAlive_nil : countAlive [] = 0 := rfl

theorem countAlive_cons_alive {m : Agent} (hm : m.alive = true)
    (rest : List Agent) : countAlive (m :: rest) = 1 + countAlive rest := by
  unfold countAlive
  rw [List.filter_cons, if_pos (by rw [hm])]
  simp [Nat.add_comm]

theorem countAlive_cons_dead {m : Agent} (hm : m.alive = false)
    (rest : List Agent) : countAlive (m :: rest) = countAlive rest := by
  unfold countAlive
  rw [List.filter_cons, if_neg (by rw [hm]; exact Bool.false_ne_true)]

theorem minByKey_cons (f : Agent → ℝ) (a : Agent) (rest : List Agent) :
    minByKey f (a :: rest) =
      some (rest.foldl (fun best p => if f p < f best then p else best) a) := rfl

/-- The per-mouse update for an alive mouse with a found nearest predator. -/
theorem update_mouse_alive_eq (env : PredatorPreyEnvironment)
    (behavior : MouseBehavior) (st : SimState) (predators : List Agent)
    (mouse nearest : Agent) (hm : mouse.alive = true)
    (hmin : minByKey (fun p => mouse.distance_to p) predators = some nearest) :
    env.update_mouse behavior st predators mouse = .ok
      (env.moved_mouse behavior st mouse nearest, 1,
       (env.moved_mouse behavior st mouse nearest).distance_to nearest) := by
  unfold PredatorPreyEnvironment.update_mouse
  rw [if_pos hm, hmin]

theorem update_mouse_dead_eq (env : PredatorPreyEnvironment)
    (behavior : MouseBehavior) (st : SimState) (predators : List Agent)
    (mouse : Agent) (hm : mouse.alive = false) :
    env.update_mouse behavior st predators mouse = .ok (mouse, 0, 0) := by
  unfold PredatorPreyEnvironment.update_mouse
  rw [if_neg (by rw [hm]; exact Bool.false_ne_true)]

/-- Components of any successful per-mouse update: one survival step is
accumulated exactly for an alive mouse, and the distance increment is
nonnegative. -/
theorem update_mouse_components {env : PredatorPreyEnvironment}
    {behavior : MouseBehavior} {st : SimState} {predators : List Agent}
    {mouse : Agent} {r : Agent × ℕ × ℝ}
    (h : env.update_mouse behavior st predators mouse = .ok r) :
    (mouse.alive = true → r.2.1 = 1) ∧ (mouse.alive = false → r.2.1 = 0) ∧
      0 ≤ r.2.2 := by
  unfold PredatorPreyEnvironment.update_mouse at h
  split at h
  next halive =>
    split at h
    next => exact Except.noConfusion h
    next nearest hmin =>
      injection h with h1
      subst h1
      refine ⟨fun _ => rfl, fun hf => ?_, distance_to_nonneg _ _⟩
      rw [halive] at hf
      exact Bool.noConfusion hf
  next halive =>
    injection h with h1
    subst h1
    refine ⟨fun ht => absurd ht halive, fun _ => rfl, le_refl 0⟩

theorem update_mice_survival {env : PredatorPreyEnvironment}
    {behavior : MouseBehavior} {st : SimState} {predators : List Agent} :
    ∀ {mice : List Agent} {r : List Agent × ℕ × ℝ},
      env.update_mice behavior st predators mice = .ok r →
      r.2.1 = countAlive mice := by
  intro mice
  induction mice with
  | nil =>
    intro r h
    injection h with h1
    subst h1
    rfl
  | cons mouse rest ih =>
    intro r h
    unfold PredatorPreyEnvironment.update_mice at h
    cases hu : env.update_mouse behavior st predators mouse with
    | error e => rw [hu] at h; exact Except.noConfusion h
    | ok r1 =>
      rw [hu] at h
      cases hr : env.update_mice behavior st predators rest with
      | error e => rw [hr] at h; exact Except.noConfusion h
      | ok rs =>
        rw [hr] at h
        injection h with h1
        subst h1
        have h2 := ih hr
        obtain ⟨ha, hd, -⟩ := update_mouse_components hu
        cases hm : mouse.alive with
        | true =>
          rw [countAlive_cons_alive hm]
          simp only [ha hm, h2]
        | false =>
          rw [countAlive_cons_dead hm]
          simp only [hd hm, h2, Nat.zero_add]

/-- A successful mouse loop exists whenever there is at least one predator,
and its accumulators are the alive count and a nonnegative distance sum. -/
theorem update_mice_spec (env : PredatorPreyEnvironment)
    (behavior : MouseBehavior) (st : SimState) {predators : List Agent}
    (hne : predators ≠ []) :
    ∀ mice, ∃ mice1 d, env.update_mice behavior st predators mice =
      .ok (mice1, countAlive mice, d) ∧ 0 ≤ d := by
  intro mice
  induction mice with
  | nil => exact ⟨[], 0, rfl, le_refl 0⟩
  | cons mouse rest ih =>
    obtain ⟨mice1, d, hrest, hd⟩ := ih
    obtain ⟨nearest, hmin⟩ : ∃ a,
        minByKey (fun p => mouse.distance_to p) predators = some a := by
      cases predators with
      | nil => exact absurd rfl hne
      | cons p ps => exact ⟨_, rfl⟩
    cases hm : mouse.alive with
    | true =>
      have heq : env.update_mice behavior st predators (mouse :: rest) =
          .ok (env.moved_mouse behavior st mouse nearest :: mice1,
            1 + countAlive rest,
            (env.moved_mouse behavior st mouse nearest).distance_to nearest + d) := by
        unfold PredatorPreyEnvironment.update_mice
        rw [update_mouse_alive_eq env behavior st predators mouse nearest hm hmin,
          hrest]
        rfl
      refine ⟨env.moved_mouse behavior st mouse nearest :: mice1,
        (env.moved_mouse behavior st mouse nearest).distance_to nearest + d,
        ?_, add_nonneg (distance_to_nonneg _ _) hd⟩
      rw [heq, countAlive_cons_alive hm]
    | false =>
      have heq : env.update_mice behavior st predators (mouse :: rest) =
          .ok (mouse :: mice1, 0 + countAlive rest, 0 + d) := by
        unfold PredatorPreyEnvironment.update_mice
        rw [update_mouse_dead_eq env behavior st predators mouse hm, hrest]
        rfl
      refine ⟨mouse :: mice1, 0 + d, ?_, by simpa using hd⟩
      rw [heq, countAlive_cons_dead hm, Nat.zero_add]

theorem run_step_spec (env : PredatorPreyEnvironment) (behavior : MouseBehavior)
    (step : ℕ) {s : SimLoopState} (hne : s.predators ≠ []) :
    ∃ s1, env.run_step behavior step s = .ok s1 ∧
      s1.total_survival_steps = s.total_survival_steps + countAlive s.mice ∧
      s.total_distance_score ≤ s1.total_distance_score ∧
      s1.predators.length = s.predators.length := by
  obtain ⟨mice1, d, hmice, hd⟩ := update_mice_spec env behavior
    ⟨step, env.width, env.height, countAlive s.mice⟩ hne s.mice
  have heq : env.run_step behavior step s = .ok
      ⟨env.apply_captures (env.update_predators mice1 s.predators) mice1,
       env.update_predators mice1 s.predators,
       s.total_survival_steps + countAlive s.mice,
       s.total_distance_score + d⟩ := by
    unfold PredatorPreyEnvironment.run_step
    dsimp only
    rw [hmice]
    rfl
  refine ⟨_, heq, rfl, ?_, ?_⟩
  · show s.total_distance_score ≤ s.total_distance_score + d
    linarith
  · show (env.update_predators mice1 s.predators).length = s.predators.length
    unfold PredatorPreyEnvironment.update_predators
    exact List.length_map _ _

theorem run_step_survival {env : PredatorPreyEnvironment}
    {behavior : MouseBehavior} {step : ℕ} {s s1 : SimLoopState}
    (h : env.run_step behavior step s = .ok s1) :
    s1.total_survival_steps = s.total_survival_steps + countAlive s.mice := by
  unfold PredatorPreyEnvironment.run_step at h
  dsimp only at h
  cases hu : env.update_mice behavior
      ⟨step, env.width, env.height, countAlive s.mice⟩ s.predators s.mice with
  | error e => rw [hu] at h; exact Except.noConfusion h
  | ok r =>
    rw [hu] at h
    injection h with h1
    rw [← h1]
    show s.total_survival_steps + r.2.1 = s.total_survival_steps + countAlive s.mice
    rw [update_mice_survival hu]

theorem run_steps_spec (env : PredatorPreyEnvironment) (behavior : MouseBehavior) :
    ∀ (n step : ℕ) (s : SimLoopState), s.predators ≠ [] →
      ∃ s1, env.run_steps behavior n step s = .ok s1 ∧
        s.total_survival_steps ≤ s1.total_survival_steps ∧
        s.total_distance_score ≤ s1.total_distance_score := by
  intro n
  induction n with
  | zero =>
    intro step s hne
    exact ⟨s, rfl, le_refl _, le_refl _⟩
  | succ n ih =>
    intro step s hne
    obtain ⟨s1, hstep, hsurv, hdist, hplen⟩ := run_step_spec env behavior step hne
    have hne1 : s1.predators ≠ [] := by
      intro hnil
      rw [hnil] at hplen
      exact hne (List.length_eq_zero.mp hplen.symm)
    by_cases hca : countAlive s1.mice = 0
    · refine ⟨s1, ?_, by omega, hdist⟩
      unfold PredatorPreyEnvironment.run_steps
      rw [hstep]
      show (if countAlive s1.mice = 0 then Except.ok s1
        else env.run_steps behavior n (step + 1) s1) = Except.ok s1
      rw [if_pos hca]
    · obtain ⟨s2, hrest, h2, h3⟩ := ih (step + 1) s1 hne1
      refine ⟨s2, ?_, by omega, by linarith⟩
      unfold PredatorPreyEnvironment.run_steps
      rw [hstep]
      show (if countAlive s1.mice = 0 then Except.ok s1
        else env.run_steps behavior n (step + 1) s1) = Except.ok s2
      rw [if_neg hca]
      exact hrest

theorem init_agents_snd_ne_nil (env : PredatorPreyEnvironment) (rng : ℕ → ℝ)
    (h : 0 < env.num_predators) : (env.init_agents rng).2 ≠ [] := by
  unfold PredatorPreyEnvironment.init_agents
  intro hnil
  have hlen := congrArg List.length hnil
  simp only [List.length_map, List.length_range, List.length_nil] at hlen
  omega

theorem fitness_of_ok (env : PredatorPreyEnvironment) (s : SimLoopState)
    (h : ¬ env.num_mice * env.max_steps = 0) :
    env.fitness_of s = .ok
      ((s.total_survival_steps : ℝ) /
          ((env.num_mice : ℝ) * (env.max_steps : ℝ)) * 100 +
        s.total_distance_score /
          ((max 1 s.total_survival_steps : ℕ) : ℝ) * 0.5 +
        (countAlive s.mice : ℝ) / (env.num_mice : ℝ) * 50) := by
  unfold PredatorPreyEnvironment.fitness_of
  rw [if_neg h]

/-- A completed trial: with a positive predator count the step loop always
succeeds, the accumulated distance is nonnegative, and the returned fitness
is the three-component formula of the source. -/
theorem run_simulation_ok (env : PredatorPreyEnvironment)
    (behavior : MouseBehavior) (rng : ℕ → ℝ) (hnm : 0 < env.num_mice)
    (hms : 0 < env.max_steps) (hnp : 0 < env.num_predators) :
    ∃ final : SimLoopState,
      env.run_steps behavior env.max_steps 0
        ⟨(env.init_agents rng).1, (env.init_agents rng).2, 0, 0⟩ = .ok final ∧
      0 ≤ final.total_distance_score ∧
      env.run_simulation behavior rng = .ok
        ((final.total_survival_steps : ℝ) /
            ((env.num_mice : ℝ) * (env.max_steps : ℝ)) * 100 +
          final.total_distance_score /
            ((max 1 final.total_survival_steps : ℕ) : ℝ) * 0.5 +
          (countAlive final.mice : ℝ) / (env.num_mice : ℝ) * 50) := by
  obtain ⟨final, hrun, hs, hd⟩ := run_steps_spec env behavior env.max_steps 0
    ⟨(env.init_agents rng).1, (env.init_agents rng).2, 0, 0⟩
    (init_agents_snd_ne_nil env rng hnp)
  refine ⟨final, hrun, hd, ?_⟩
  unfold PredatorPreyEnvironment.run_simulation
    PredatorPreyEnvironment.run_simulation_from
  dsimp only
  rw [hrun]
  show env.fitness_of final = _
  exact fitness_of_ok env final (Nat.mul_ne_zero hnm.ne' hms.ne')

/-- C4: a completed trial returns exactly
`avgSurvival * 100 + avgDistance * 0.5 + finalAlive * 50`, with
`avgSurvival = survivalSteps / (numPrey * maxSteps)`,
`avgDistance = distanceScore / max 1 survivalSteps`, and `finalAlive` the
fraction of prey alive at the end; the survival total counts one
(prey, step) pair per alive prey in every executed step (second conjunct). -/
theorem run_simulation_fitness_formula :
    ∀ (env : PredatorPreyEnvironment) (behavior : MouseBehavior) (rng : ℕ → ℝ),
      0 < env.num_mice → 0 < env.max_steps → 0 < env.num_predators →
      (∃ final : SimLoopState,
        env.run_steps behavior env.max_steps 0
          ⟨(env.init_agents rng).1, (env.init_agents rng).2, 0, 0⟩ =
            .ok final ∧
        env.run_simulation behavior rng = .ok
          ((final.total_survival_steps : ℝ) /
              ((env.num_mice : ℝ) * (env.max_steps : ℝ)) * 100 +
            final.total_distance_score /
              ((max 1 final.total_survival_steps : ℕ) : ℝ) * 0.5 +
            (countAlive final.mice : ℝ) / (env.num_mice : ℝ) * 50)) ∧
      (∀ (step : ℕ) (s s1 : SimLoopState),
        env.run_step behavior step s = .ok s1 →
        s1.total_survival_steps = s.total_survival_steps + countAlive s.mice) := by
  intro env behavior rng hnm hms hnp
  constructor
  · obtain ⟨final, hrun, -, hsim⟩ := run_simulation_ok env behavior rng hnm hms hnp
    exact ⟨final, hrun, hsim⟩
  · intro step s s1 h
    exact run_step_survival h

/-- A small concrete configuration used to instantiate the trial theorems. -/
def envOne : PredatorPreyEnvironment :=
  { width := 100, height := 100, num_mice := 1, num_predators := 1,
    max_steps := 1, predator_speed := 1.5, mouse_speed := 1,
    capture_distance := 2 }

/-- A behavior whose every call fails (raises / returns a malformed value). -/
def failBehavior : MouseBehavior := fun _ _ _ => none

noncomputable def zeroStream : ℕ → ℝ := fun _ => 0

theorem run_simulation_fitness_formula_witness :
    ∃ final : SimLoopState,
      envOne.run_steps failBehavior envOne.max_steps 0
        ⟨(envOne.init_agents zeroStream).1, (envOne.init_agents zeroStream).2,
          0, 0⟩ = .ok final ∧
      envOne.run_simulation failBehavior zeroStream = .ok
        ((final.total_survival_steps : ℝ) /
            ((envOne.num_mice : ℝ) * (envOne.max_steps : ℝ)) * 100 +
          final.total_distance_score /
            ((max 1 final.total_survival_steps : ℕ) : ℝ) * 0.5 +
          (countAlive final.mice : ℝ) / (envOne.num_mice : ℝ) * 50) :=
  (run_simulation_fitness_formula envOne failBehavior zeroStream (by decide)
    (by decide) (by decide)).1

/-- C6: a behavior call that raises or returns a malformed result is
swallowed locally: the mouse does not move that step (the update returns the
mouse unchanged while still accumulating its survival step and distance),
and the whole trial still completes with a fitness value for any behavior. -/
theorem behavior_failure_swallowed :
    (∀ (env : PredatorPreyEnvironment) (behavior : MouseBehavior)
      (st : SimState) (predators : List Agent) (mouse nearest : Agent),
      mouse.alive = true →
      minByKey (fun p => mouse.distance_to p) predators = some nearest →
      behavior st (mouse.x, mouse.y) (nearest.x, nearest.y) = none →
      env.update_mouse behavior st predators mouse =
        .ok (mouse, 1, mouse.distance_to nearest)) ∧
    (∀ (env : PredatorPreyEnvironment) (behavior : MouseBehavior) (rng : ℕ → ℝ),
      0 < env.num_mice → 0 < env.max_steps → 0 < env.num_predators →
      ∃ r : ℝ, env.run_simulation behavior rng = .ok r) := by
  constructor
  · intro env behavior st predators mouse nearest hm hmin hfail
    rw [update_mouse_alive_eq env behavior st predators mouse nearest hm hmin]
    unfold PredatorPreyEnvironment.moved_mouse
    rw [hfail]
  · intro env behavior rng hnm hms hnp
    obtain ⟨final, -, -, hsim⟩ := run_simulation_ok env behavior rng hnm hms hnp
    exact ⟨_, hsim⟩

noncomputable def mouseA : Agent := { x := 0, y := 0, alive := true }

noncomputable def predA : Agent := { x := 3, y := 4, alive := true }

theorem behavior_failure_swallowed_witness :
    envOne.update_mouse failBehavior ⟨0, 100, 100, 1⟩ [predA] mouseA =
      .ok (mouseA, 1, mouseA.distance_to predA) ∧
    ∃ r : ℝ, envOne.run_simulation failBehavior zeroStream = .ok r := by
  constructor
  · exact behavior_failure_swallowed.1 envOne failBehavior ⟨0, 100, 100, 1⟩
      [predA] mouseA predA rfl rfl rfl
  · exact behavior_failure_swallowed.2 envOne failBehavior zeroStream
      (by decide) (by decide) (by decide)

theorem init_agents_agree (env : PredatorPreyEnvironment) {rng1 rng2 : ℕ → ℝ}
    (h : ∀ i, i < 2 * (env.num_mice + env.num_predators) → rng1 i = rng2 i) :
    env.init_agents rng1 = env.init_agents rng2 := by
  unfold PredatorPreyEnvironment.init_agents
  refine congrArg₂ Prod.mk ?_ ?_
  · refine List.map_congr_left ?_
    intro i hi
    rw [List.mem_range] at hi
    rw [h (2 * i) (by omega), h (2 * i + 1) (by omega)]
  · refine List.map_congr_left ?_
    intro j hj
    rw [List.mem_range] at hj
    rw [h (2 * env.num_mice + 2 * j) (by omega),
      h (2 * env.num_mice + 2 * j + 1) (by omega)]

/-- C7: a trial is deterministic modulo the injected random draws used
for initial agent placement — any two random streams that agree on the
`2 * (num_mice + num_predators)` draws consumed by `_initialize_agents`
give identical fitness, and the rest of the trial consumes no randomness.
In particular one deterministic behavior evaluated twice with the same seed
yields identical fitness. -/
theorem run_simulation_deterministic :
    ∀ (env : PredatorPreyEnvironment) (behavior : MouseBehavior)
      (rng1 rng2 : ℕ → ℝ),
      (∀ i, i < 2 * (env.num_mice + env.num_predators) → rng1 i = rng2 i) →
      env.run_simulation behavior rng1 = env.run_simulation behavior rng2 := by
  intro env behavior rng1 rng2 h
  unfold PredatorPreyEnvironment.run_simulation
  rw [init_agents_agree env h]

noncomputable def streamA : ℕ → ℝ := fun i => if i < 100 then 1 else 0

noncomputable def streamB : ℕ → ℝ := fun i => if i < 100 then 1 else 2

theorem run_simulation_deterministic_witness :
    envOne.run_simulation failBehavior streamA =
      envOne.run_simulation failBehavior streamB := by
  refine run_simulation_deterministic envOne failBehavior streamA streamB ?_
  intro i hi
  have h4 : 2 * (envOne.num_mice + envOne.num_predators) = 4 := rfl
  have hi100 : i < 100 := by omega
  unfold streamA streamB
  rw [if_pos hi100, if_pos hi100]

/-- C9: with positive prey count and positive step limit, a completed
trial returns a nonnegative fitness; in particular a genuine trial score
never equals the failure sentinel `-1`. -/
theorem run_simulation_nonneg :
    ∀ (env : PredatorPreyEnvironment) (behavior : MouseBehavior) (rng : ℕ → ℝ),
      0 < env.num_mice → 0 < env.max_steps → 0 < env.num_predators →
      ∃ r : ℝ, env.run_simulation behavior rng = .ok r ∧ 0 ≤ r ∧ r ≠ -1 := by
  intro env behavior rng hnm hms hnp
  obtain ⟨final, -, hd, hsim⟩ := run_simulation_ok env behavior rng hnm hms hnp
  have t1 : (0 : ℝ) ≤ (final.total_survival_steps : ℝ) /
      ((env.num_mice : ℝ) * (env.max_steps : ℝ)) * 100 :=
    mul_nonneg (div_nonneg (Nat.cast_nonneg _)
      (mul_nonneg (Nat.cast_nonneg _) (Nat.cast_nonneg _))) (by norm_num)
  have t2 : (0 : ℝ) ≤ final.total_distance_score /
      ((max 1 final.total_survival_steps : ℕ) : ℝ) * 0.5 :=
    mul_nonneg (div_nonneg hd (Nat.cast_nonneg _)) (by norm_num)
  have t3 : (0 : ℝ) ≤ (countAlive final.mice : ℝ) / (env.num_mice : ℝ) * 50 :=
    mul_nonneg (div_nonneg (Nat.cast_nonneg _) (Nat.cast_nonneg _)) (by norm_num)
  refine ⟨_, hsim, by linarith, ?_⟩
  intro hcontra
  linarith

theorem run_simulation_nonneg_witness :
    ∃ r : ℝ, envOne.run_simulation failBehavior zeroStream = .ok r ∧
      0 ≤ r ∧ r ≠ -1 :=
  run_simulation_nonneg envOne failBehavior zeroStream (by decide) (by decide)
    (by decide)

/-- C5: `Evaluator.evaluate` never raises to its caller — it always
returns a (fitness, metadata) pair; when the scope lacks `mice_behavior` it
returns `-1.0` with an error naming the missing entry point (and no
traceback); and whatever exception leaves the `try` body — compilation
failure, a trial failure or the empty-mean division — is caught and
converted to `-1.0` with the error text and a traceback in the metadata. -/
theorem evaluate_never_raises :
    (∀ (env : PredatorPreyEnvironment) (trial_rng : ℕ → ℕ → ℝ)
      (num_trials : ℕ),
      Evaluator.evaluate (.scope none) env trial_rng num_trials =
        (-1, .errorOnly "No mice_behavior function found")) ∧
    (∀ (msg : String) (env : PredatorPreyEnvironment) (trial_rng : ℕ → ℕ → ℝ)
      (num_trials : ℕ),
      Evaluator.evaluate (.raises msg) env trial_rng num_trials =
        (-1, .errorWithTrace msg)) ∧
    (∀ (execd : ExecOutcome) (env : PredatorPreyEnvironment)
      (trial_rng : ℕ → ℕ → ℝ) (num_trials : ℕ) (msg : String),
      Evaluator.evaluate_body execd env trial_rng num_trials = .error msg →
      Evaluator.evaluate execd env trial_rng num_trials =
        (-1, .errorWithTrace msg)) := by
  refine ⟨fun env tr n => rfl, fun msg env tr n => rfl, ?_⟩
  intro execd env tr n msg h
  unfold Evaluator.evaluate
  rw [h]

theorem evaluate_never_raises_witness :
    Evaluator.evaluate (.scope none) envOne (fun _ _ => 0) 10 =
      (-1, .errorOnly "No mice_behavior function found") ∧
    Evaluator.evaluate (.raises "boom") envOne (fun _ _ => 0) 10 =
      (-1, .errorWithTrace "boom") ∧
    Evaluator.evaluate (.raises "kaput") envOne (fun _ _ => 0) 3 =
      (-1, .errorWithTrace "kaput") :=
  ⟨evaluate_never_raises.1 envOne _ 10,
   evaluate_never_raises.2.1 "boom" envOne _ 10,
   evaluate_never_raises.2.2 (.raises "kaput") envOne _ 3 "kaput" rfl⟩

/-- C10: with the entry point present and `num_trials = 0` no trial
runs, the `sum(scores) / len(scores)` division raises `ZeroDivisionError`
internally, and the call returns fitness `-1.0` with error metadata of the
same shape as any other evaluation failure. -/
theorem evaluate_zero_trials :
    ∀ (behavior : MouseBehavior) (env : PredatorPreyEnvironment)
      (trial_rng : ℕ → ℕ → ℝ),
      Evaluator.evaluate_body (.scope (some behavior)) env trial_rng 0 =
        .error "division by zero" ∧
      Evaluator.evaluate (.scope (some behavior)) env trial_rng 0 =
        (-1, .errorWithTrace "division by zero") := by
  intro behavior env tr
  exact ⟨rfl, rfl⟩

/-- The running state of the `FunSearch` orchestrator used to instantiate
the iteration theorem. -/
def fsEmpty : FunSearch Unit :=
  { database := ProgramDatabase.init Unit 100, total_samples := 0,
    valid_samples := 0, accepted_samples := 0, best_fitness := ⊥ }

/-- C8: when the sampled candidate fails the syntax check,
`run_iteration` returns the `invalid_syntax` failure outcome with fitness
`-1.0`, without evaluating the candidate (the result is independent of the
evaluator oracle) and without offering it to the store (database and
acceptance statistics unchanged); the proposed counter is incremented and
the valid counter is not. -/
theorem run_iteration_rejects_invalid :
    ∀ (M : Type) (fs : FunSearch M) (choice : ℕ)
      (sample : String → Option (List String) → String)
      (is_valid : String → Bool) (evaluateFn : String → ℚ × M)
      (id_of : Program M → ℕ),
      is_valid (sample funsearchPrompt
        ((fs.database.sample_program choice).map fun p => [p.code])) = false →
      (fs.run_iteration choice sample is_valid evaluateFn id_of).2 =
        { success := false, reason := some "invalid_syntax", fitness := -1 } ∧
      (fs.run_iteration choice sample is_valid evaluateFn id_of).1.total_samples
        = fs.total_samples + 1 ∧
      (fs.run_iteration choice sample is_valid evaluateFn id_of).1.valid_samples
        = fs.valid_samples ∧
      (fs.run_iteration choice sample is_valid evaluateFn
        id_of).1.accepted_samples = fs.accepted_samples ∧
      (fs.run_iteration choice sample is_valid evaluateFn id_of).1.database
        = fs.database ∧
      (fs.run_iteration choice sample is_valid evaluateFn id_of).1.best_fitness
        = fs.best_fitness ∧
      (∀ evaluateFn2 : String → ℚ × M,
        fs.run_iteration choice sample is_valid evaluateFn2 id_of =
          fs.run_iteration choice sample is_valid evaluateFn id_of) := by
  intro M fs choice sample is_valid evaluateFn id_of hv
  have key : ∀ e : String → ℚ × M,
      fs.run_iteration choice sample is_valid e id_of =
      ({ fs with total_samples := fs.total_samples + 1 },
       { success := false, reason := some "invalid_syntax", fitness := -1 }) := by
    intro e
    unfold FunSearch.run_iteration
    dsimp only
    rw [hv]
    simp
  refine ⟨?_, ?_, ?_, ?_, ?_, ?_,
    fun e2 => (key e2).trans (key evaluateFn).symm⟩ <;> rw [key evaluateFn]

theorem run_iteration_rejects_invalid_witness :
    (fsEmpty.run_iteration 0 (fun _ _ => "x") (fun _ => false)
      (fun _ => (0, ())) (fun _ => 0)).2 =
      { success := false, reason := some "invalid_syntax", fitness := -1 } ∧
    (fsEmpty.run_iteration 0 (fun _ _ => "x") (fun _ => false)
      (fun _ => (0, ())) (fun _ => 0)).1.total_samples =
      fsEmpty.total_samples + 1 ∧
    (fsEmpty.run_iteration 0 (fun _ _ => "x") (fun _ => false)
      (fun _ => (0, ())) (fun _ => 0)).1.valid_samples = fsEmpty.valid_samples ∧
    (fsEmpty.run_iteration 0 (fun _ _ => "x") (fun _ => false)
      (fun _ => (0, ())) (fun _ => 0)).1.database = fsEmpty.database := by
  have h := run_iteration_rejects_invalid Unit fsEmpty 0 (fun _ _ => "x")
    (fun _ => false) (fun _ => (0, ())) (fun _ => 0) rfl
  exact ⟨h.1, h.2.1, h.2.2.1, h.2.2.2.2.1⟩
